import Mathlib

/-!
Shallow embedding of the coordinate-generation scripts
`generate_coordinates.py` and `generate_wronki_gniezno_route.py`.

Coordinates are `[lat, lon]` pairs of decimal degrees, modelled as `ℝ × ℝ`.
The Python floats are modelled by exact real arithmetic.  Fallible code
(Python raising `IndexError` on `all_points[0]` for an empty list, or the
divergent `while` loop running out of fuel) is modelled with `Option`.
-/

open Real

namespace Wayzza

/-- A coordinate `[lat, lon]` in decimal degrees. -/
abbrev Coord := ℝ × ℝ

noncomputable section

/-- `math.radians`: degrees to radians. -/
def radians (x : ℝ) : ℝ := x * π / 180

/-- The Haversine intermediate term `a` of `haversine_distance`:
`a = sin(dlat/2)**2 + cos(lat1) * cos(lat2) * sin(dlon/2)**2`. -/
def hterm (c1 c2 : Coord) : ℝ :=
  sin ((radians c2.1 - radians c1.1) / 2) ^ 2 +
    cos (radians c1.1) * cos (radians c2.1) *
      sin ((radians c2.2 - radians c1.2) / 2) ^ 2

/-- `haversine_distance(coord1, coord2)`: great-circle distance in meters,
`R * c` with `R = 6371000` and `c = 2 * asin(sqrt(a))`. -/
def haversine_distance (c1 c2 : Coord) : ℝ :=
  6371000 * (2 * arcsin (Real.sqrt (hterm c1 c2)))

/-- `interpolate_points(start, end, num_points)`: the `num_points + 1`
points `start + (end - start) * (i / num_points)` componentwise,
for `i in range(num_points + 1)`. -/
def interpolate_points (start e : Coord) (num_points : ℕ) : List Coord :=
  (List.range (num_points + 1)).map fun (i : ℕ) =>
    (start.1 + (e.1 - start.1) * ((i : ℝ) / (num_points : ℝ)),
     start.2 + (e.2 - start.2) * ((i : ℝ) / (num_points : ℝ)))

/-- `num_intermediate = max(1, int(distance / minSpacing))` computed in
`generate_route_coordinates` for one waypoint segment (the distance is
non-negative, so Python's `int` truncation is the natural-number floor). -/
def num_intermediate (minSpacing : ℝ) (start e : Coord) : ℕ :=
  max 1 ⌊haversine_distance start e / minSpacing⌋₊

/-- One interpolated segment: `interpolate_points(start, end, num_intermediate)`,
the spec's `interpolateSegment`. -/
def segment_points (minSpacing : ℝ) (start e : Coord) : List Coord :=
  interpolate_points start e (num_intermediate minSpacing start e)

/-- The accumulation loop of `generate_route_coordinates`: for each
consecutive waypoint pair append the interpolated segment, dropping the
segment's last point except for the final segment. -/
def build_all_points (minSpacing : ℝ) : List Coord → List Coord
  | [] => []
  | [_] => []
  | [a, b] => segment_points minSpacing a b
  | a :: b :: c :: rest =>
      (segment_points minSpacing a b).dropLast ++
        build_all_points minSpacing (b :: c :: rest)

/-- The spacing-filter loop body: walk the remaining candidates, keeping a
candidate only when it is at distance `≥ minSpacing` from the last kept
point. -/
def spacing_go (minSpacing : ℝ) : Coord → List Coord → List Coord
  | _, [] => []
  | lastKept, p :: ps =>
      if minSpacing ≤ haversine_distance lastKept p then
        p :: spacing_go minSpacing p ps
      else
        spacing_go minSpacing lastKept ps

/-- The waypoint-to-track densification of `generate_route_coordinates`,
with the hard-coded waypoint list and spacing lifted to parameters:
interpolate all segments, then apply the minimum-spacing filter seeded
with `all_points[0]`.  Python raises `IndexError` on `all_points[0]` when
the accumulated list is empty; that is modelled as `none`. -/
def densify (ws : List Coord) (minSpacing : ℝ) : Option (List Coord) :=
  match build_all_points minSpacing ws with
  | [] => none
  | p :: rest => some (p :: spacing_go minSpacing p rest)

/-- Arithmetic midpoint of two coordinates, averaged componentwise. -/
def midpoint_pt (p q : Coord) : Coord := ((p.1 + q.1) / 2, (p.2 + q.2) / 2)

/-- The body of one gap-filling pass (`for i in range(len(filtered_points)-1)`):
keep each point and insert the midpoint after it when the gap exceeds
`gapThreshold`. -/
def fill_body (gapThreshold : ℝ) : List Coord → List Coord
  | p :: q :: rest =>
      (if gapThreshold < haversine_distance p q then [p, midpoint_pt p q]
       else [p]) ++ fill_body gapThreshold (q :: rest)
  | _ => []

/-- One full gap-filling pass: the pair loop followed by
`new_points.append(filtered_points[-1])`.  Python's `filtered_points[-1]`
raises `IndexError` on an empty list; that is modelled as `none`. -/
def fill_pass (gapThreshold : ℝ) (fp : List Coord) : Option (List Coord) :=
  match fp.getLast? with
  | none => none
  | some lastP => some (fill_body gapThreshold fp ++ [lastP])

/-- The `while len(filtered_points) < target` loop of
`generate_route_coordinates` (target `1000`, gap threshold `80` in the
source, lifted to parameters), with explicit fuel: `none` means the loop
is still running (or crashed) after `fuel` passes. -/
def densify_loop (target : ℕ) (gapThreshold : ℝ) : ℕ → List Coord → Option (List Coord)
  | 0, fp => if fp.length < target then none else some fp
  | fuel + 1, fp =>
      if fp.length < target then
        match fill_pass gapThreshold fp with
        | none => none
        | some fp2 => densify_loop target gapThreshold fuel fp2
      else some fp

/-- The loop followed by the final truncation
`return filtered_points[:target]`. -/
def densify_to_target (target : ℕ) (gapThreshold : ℝ) (fuel : ℕ)
    (fp : List Coord) : Option (List Coord) :=
  (densify_loop target gapThreshold fuel fp).map (List.take target)

end

/-! ### Basic facts about the Haversine term -/

/-- The Haversine term is bounded: `0 ≤ a ≤ 1` in exact real arithmetic,
for arbitrary real inputs. -/
theorem hterm_bounds (u v w : ℝ) :
    0 ≤ sin ((v - u) / 2) ^ 2 + cos u * cos v * sin w ^ 2 ∧
      sin ((v - u) / 2) ^ 2 + cos u * cos v * sin w ^ 2 ≤ 1 := by
  have hs : sin ((v - u) / 2) ^ 2 = 1 / 2 - cos (v - u) / 2 := by
    have := Real.sin_sq_eq_half_sub ((v - u) / 2)
    rwa [show 2 * ((v - u) / 2) = v - u by ring] at this
  have ht0 : 0 ≤ sin w ^ 2 := sq_nonneg _
  have ht1 : sin w ^ 2 ≤ 1 := by
    nlinarith [Real.neg_one_le_sin w, Real.sin_le_one w]
  have hsub : cos (v - u) = cos v * cos u + sin v * sin u := Real.cos_sub v u
  have hadd : cos (v + u) = cos v * cos u - sin v * sin u := Real.cos_add v u
  have k1 : 0 ≤ (1 - sin w ^ 2) * (1 - cos (v - u)) :=
    mul_nonneg (by linarith) (by nlinarith [Real.cos_le_one (v - u)])
  have k2 : 0 ≤ sin w ^ 2 * (1 + cos (v + u)) :=
    mul_nonneg ht0 (by nlinarith [Real.neg_one_le_cos (v + u)])
  have k3 : 0 ≤ (1 - sin w ^ 2) * (1 + cos (v - u)) :=
    mul_nonneg (by linarith) (by nlinarith [Real.neg_one_le_cos (v - u)])
  have k4 : 0 ≤ sin w ^ 2 * (1 - cos (v + u)) :=
    mul_nonneg ht0 (by nlinarith [Real.cos_le_one (v + u)])
  constructor <;> nlinarith [k1, k2, k3, k4]

theorem hterm_nonneg (c1 c2 : Coord) : 0 ≤ hterm c1 c2 :=
  (hterm_bounds (radians c1.1) (radians c2.1)
    ((radians c2.2 - radians c1.2) / 2)).1

theorem hterm_le_one (c1 c2 : Coord) : hterm c1 c2 ≤ 1 :=
  (hterm_bounds (radians c1.1) (radians c2.1)
    ((radians c2.2 - radians c1.2) / 2)).2

theorem haversine_nonneg (c1 c2 : Coord) : 0 ≤ haversine_distance c1 c2 := by
  have h := Real.arcsin_nonneg.mpr (Real.sqrt_nonneg (hterm c1 c2))
  unfold haversine_distance
  nlinarith

theorem haversine_self (c : Coord) : haversine_distance c c = 0 := by
  unfold haversine_distance hterm
  simp

theorem haversine_comm (c1 c2 : Coord) :
    haversine_distance c1 c2 = haversine_distance c2 c1 := by
  unfold haversine_distance hterm
  rw [show radians c1.1 - radians c2.1 = -(radians c2.1 - radians c1.1) by ring,
      show radians c1.2 - radians c2.2 = -(radians c2.2 - radians c1.2) by ring]
  rw [show (-(radians c2.1 - radians c1.1)) / 2 = -((radians c2.1 - radians c1.1) / 2) by ring,
      show (-(radians c2.2 - radians c1.2)) / 2 = -((radians c2.2 - radians c1.2) / 2) by ring]
  rw [Real.sin_neg, Real.sin_neg]
  ring_nf

/-- On the equator (`lat = 0` for both points) the Haversine distance of an
eastward step of `y - x ≤ 180` degrees of longitude is exactly
`R * (y - x) * π / 180`. -/
theorem haversine_equator (x y : ℝ) (hxy : x ≤ y) (hle : y - x ≤ 180) :
    haversine_distance (0, x) (0, y) = 6371000 * ((y - x) * π / 180) := by
  have hz0 : 0 ≤ (y - x) * π / 360 := by
    have := Real.pi_pos
    have : 0 ≤ (y - x) * π := mul_nonneg (by linarith) (by linarith)
    linarith
  have hz1 : (y - x) * π / 360 ≤ π / 2 := by
    have hp := Real.pi_pos
    nlinarith
  have hrad : radians y - radians x = (y - x) * π / 180 := by
    unfold radians; ring
  have hterm_eq : hterm (0, x) (0, y) = sin ((y - x) * π / 360) ^ 2 := by
    unfold hterm radians
    norm_num
    ring_nf
  unfold haversine_distance
  rw [hterm_eq]
  rw [Real.sqrt_sq_eq_abs, abs_of_nonneg
    (Real.sin_nonneg_of_nonneg_of_le_pi hz0 (by nlinarith [Real.pi_pos]))]
  rw [Real.arcsin_sin (by nlinarith [Real.pi_pos]) hz1]
  ring

/-! ### Structural facts about the densification pipeline -/

theorem length_interpolate_points (s e : Coord) (n : ℕ) :
    (interpolate_points s e n).length = n + 1 := by
  unfold interpolate_points
  rw [List.length_map, List.length_range]

theorem head?_interpolate_points (s e : Coord) (n : ℕ) :
    (interpolate_points s e n).head? = some s := by
  unfold interpolate_points
  rw [List.head?_map, List.range_succ_eq_map]
  simp

theorem getLast?_interpolate_points (s e : Coord) (n : ℕ) (hn : n ≠ 0) :
    (interpolate_points s e n).getLast? = some e := by
  have hnR : (n : ℝ) ≠ 0 := Nat.cast_ne_zero.mpr hn
  have h1 : (List.range (n + 1)).getLast? = some n := by
    rw [List.range_succ]; exact List.getLast?_concat _
  unfold interpolate_points
  rw [List.getLast?_map, h1]
  simp [div_self hnR]

theorem one_le_num_intermediate (minSpacing : ℝ) (s e : Coord) :
    1 ≤ num_intermediate minSpacing s e :=
  le_max_left _ _

theorem segment_points_ne_nil (S : ℝ) (a b : Coord) :
    segment_points S a b ≠ [] := by
  intro h
  have := length_interpolate_points a b (num_intermediate S a b)
  rw [show interpolate_points a b (num_intermediate S a b) = segment_points S a b from rfl,
    h] at this
  simp at this

theorem head?_segment_points (S : ℝ) (a b : Coord) :
    (segment_points S a b).head? = some a :=
  head?_interpolate_points a b _

theorem getLast?_segment_points (S : ℝ) (a b : Coord) :
    (segment_points S a b).getLast? = some b :=
  getLast?_interpolate_points a b _
    (Nat.one_le_iff_ne_zero.mp (one_le_num_intermediate S a b))

theorem two_le_length_segment_points (S : ℝ) (a b : Coord) :
    2 ≤ (segment_points S a b).length := by
  have h := length_interpolate_points a b (num_intermediate S a b)
  have := one_le_num_intermediate S a b
  rw [show interpolate_points a b (num_intermediate S a b) = segment_points S a b from rfl] at h
  omega

theorem build_all_points_ne_nil (S : ℝ) :
    ∀ (a b : Coord) (rest : List Coord), build_all_points S (a :: b :: rest) ≠ [] := by
  intro a b rest
  induction rest generalizing a b with
  | nil => exact segment_points_ne_nil S a b
  | cons c rest ih =>
      simp only [build_all_points]
      intro h
      exact ih b c (List.append_eq_nil.mp h).2

theorem head?_build_all_points (S : ℝ) (a b : Coord) (rest : List Coord) :
    (build_all_points S (a :: b :: rest)).head? = some a := by
  cases rest with
  | nil => exact head?_segment_points S a b
  | cons c rest =>
      simp only [build_all_points, List.head?_append]
      rw [List.head?_dropLast, if_pos (by have := two_le_length_segment_points S a b; omega),
        head?_segment_points]
      rfl

theorem getLast?_build_all_points (S : ℝ) :
    ∀ (a b : Coord) (rest : List Coord),
      (build_all_points S (a :: b :: rest)).getLast? = (a :: b :: rest).getLast? := by
  intro a b rest
  induction rest generalizing a b with
  | nil => simp [build_all_points, getLast?_segment_points S a b]
  | cons c rest ih =>
      simp only [build_all_points]
      rw [List.getLast?_append_of_ne_nil _ (build_all_points_ne_nil S b c rest), ih b c,
        List.getLast?_cons_cons]
      simp

theorem spacing_go_cons (S : ℝ) (lastKept p : Coord) (ps : List Coord) :
    spacing_go S lastKept (p :: ps) =
      if S ≤ haversine_distance lastKept p then p :: spacing_go S p ps
      else spacing_go S lastKept ps := rfl

/-- The spacing filter output is a `≥ minSpacing` chain: every adjacent pair
of the filtered list (seed included) is at distance at least `minSpacing`. -/
theorem spacing_go_chain (S : ℝ) :
    ∀ (rest : List Coord) (lastKept : Coord),
      List.Chain' (fun p q => S ≤ haversine_distance p q)
        (lastKept :: spacing_go S lastKept rest) := by
  intro rest
  induction rest with
  | nil => intro lastKept; simp [spacing_go]
  | cons p ps ih =>
      intro lastKept
      rw [spacing_go_cons]
      split_ifs with hd
      · exact List.chain'_cons.mpr ⟨hd, ih p⟩
      · exact ih lastKept

/-- The last point of the spacing filter output either is the last candidate
or is at distance `< minSpacing` from it. -/
theorem spacing_go_getLast (S : ℝ) :
    ∀ (rest : List Coord) (lastKept w : Coord), rest.getLast? = some w →
      (lastKept :: spacing_go S lastKept rest).getLast? = some w ∨
        ∃ z, (lastKept :: spacing_go S lastKept rest).getLast? = some z ∧
          haversine_distance z w < S := by
  intro rest
  induction rest with
  | nil => intro lastKept w h; simp at h
  | cons p ps ih =>
      intro lastKept w h
      rw [spacing_go_cons]
      cases ps with
      | nil =>
          simp only [List.getLast?_singleton, Option.some.injEq] at h
          subst h
          split_ifs with hd
          · left; simp [spacing_go]
          · right
            exact ⟨lastKept, by simp [spacing_go], by linarith [not_le.mp hd]⟩
      | cons q qs =>
          rw [List.getLast?_cons_cons] at h
          split_ifs with hd
          · rw [List.getLast?_cons_cons]
            exact ih p w h
          · exact ih lastKept w h

/-- One gap-filling pass body never loses more than the final point:
`len(fp) ≤ len(fill_body fp) + 1`. -/
theorem length_fill_body (gap : ℝ) :
    ∀ fp : List Coord, fp.length ≤ (fill_body gap fp).length + 1 := by
  intro fp
  induction fp with
  | nil => simp [fill_body]
  | cons p rest ih =>
      cases rest with
      | nil => simp [fill_body]
      | cons q rest2 =>
          rw [show fill_body gap (p :: q :: rest2) =
              (if gap < haversine_distance p q then [p, midpoint_pt p q] else [p]) ++
                fill_body gap (q :: rest2) from rfl]
          rw [List.length_append]
          simp only [List.length_cons] at ih ⊢
          split_ifs <;> simp only [List.length_cons, List.length_nil] <;> omega

/-- Once the point count is at the target, the loop exits immediately. -/
theorem densify_loop_of_le (target : ℕ) (gap : ℝ) (fp : List Coord)
    (h : target ≤ fp.length) :
    ∀ fuel, densify_loop target gap fuel fp = some fp := by
  intro fuel
  cases fuel <;> simp [densify_loop, Nat.not_lt.mpr h]

/-- If one pass maps `fp` to itself while the count is below target, the
`while` loop never terminates: it returns `none` for every fuel. -/
theorem densify_loop_fixed_none (target : ℕ) (gap : ℝ) (fp : List Coord)
    (hfix : fill_pass gap fp = some fp) (hlen : fp.length < target) :
    ∀ fuel, densify_loop target gap fuel fp = none := by
  intro fuel
  induction fuel with
  | zero => simp [densify_loop, hlen]
  | succ n ih => simp [densify_loop, hlen, hfix, ih]

/-! ### Concrete evaluations on small equatorial inputs -/

theorem haversine_0_0001 :
    haversine_distance ((0 : ℝ), (0 : ℝ)) (0, 0.0001) = 6371000 * (0.0001 * π / 180) := by
  have h := haversine_equator 0 0.0001 (by norm_num) (by norm_num)
  norm_num at h ⊢
  exact h

theorem haversine_0_001 :
    haversine_distance ((0 : ℝ), (0 : ℝ)) (0, 0.001) = 6371000 * (0.001 * π / 180) := by
  have h := haversine_equator 0 0.001 (by norm_num) (by norm_num)
  norm_num at h ⊢
  exact h

theorem haversine_0_0005 :
    haversine_distance ((0 : ℝ), (0 : ℝ)) (0, 0.0005) = 6371000 * (0.0005 * π / 180) := by
  have h := haversine_equator 0 0.0005 (by norm_num) (by norm_num)
  norm_num at h ⊢
  exact h

theorem haversine_0005_001 :
    haversine_distance ((0 : ℝ), (0.0005 : ℝ)) (0, 0.001) = 6371000 * (0.0005 * π / 180) := by
  have h := haversine_equator 0.0005 0.001 (by norm_num) (by norm_num)
  norm_num at h ⊢
  convert h using 3

theorem haversine_0_0001_lt_50 :
    haversine_distance ((0 : ℝ), (0 : ℝ)) (0, 0.0001) < 50 := by
  rw [haversine_0_0001]
  nlinarith [Real.pi_lt_d2]

theorem haversine_0_0005_ge_50 :
    (50 : ℝ) ≤ haversine_distance ((0 : ℝ), (0 : ℝ)) (0, 0.0005) := by
  rw [haversine_0_0005]
  nlinarith [Real.pi_gt_three]

theorem haversine_0005_001_ge_50 :
    (50 : ℝ) ≤ haversine_distance ((0 : ℝ), (0.0005 : ℝ)) (0, 0.001) := by
  rw [haversine_0005_001]
  nlinarith [Real.pi_gt_three]

theorem num_intermediate_0_0001 :
    num_intermediate 50 ((0 : ℝ), (0 : ℝ)) (0, 0.0001) = 1 := by
  unfold num_intermediate
  rw [haversine_0_0001]
  rw [Nat.floor_eq_zero.mpr (by nlinarith [Real.pi_lt_d2, Real.pi_pos])]
  rfl

theorem num_intermediate_0_001 :
    num_intermediate 50 ((0 : ℝ), (0 : ℝ)) (0, 0.001) = 2 := by
  unfold num_intermediate
  rw [haversine_0_001]
  have h : ⌊6371000 * ((0.001 : ℝ) * π / 180) / 50⌋₊ = 2 := by
    rw [Nat.floor_eq_iff (by positivity)]
    constructor
    · nlinarith [Real.pi_gt_three]
    · nlinarith [Real.pi_lt_d2]
  rw [h]
  rfl

theorem interpolate_0_0001 :
    interpolate_points ((0 : ℝ), (0 : ℝ)) (0, 0.0001) 1 =
      [((0 : ℝ), (0 : ℝ)), (0, 0.0001)] := by
  unfold interpolate_points
  rw [show List.range 2 = [0, 1] from rfl]
  simp only [List.map_cons, List.map_nil, List.cons.injEq, Prod.mk.injEq]
  norm_num

theorem interpolate_0_001 :
    interpolate_points ((0 : ℝ), (0 : ℝ)) (0, 0.001) 2 =
      [((0 : ℝ), (0 : ℝ)), (0, 0.0005), (0, 0.001)] := by
  unfold interpolate_points
  rw [show List.range 3 = [0, 1, 2] from rfl]
  simp only [List.map_cons, List.map_nil, List.cons.injEq, Prod.mk.injEq]
  norm_num

theorem segment_points_0_001 :
    segment_points 50 ((0 : ℝ), (0 : ℝ)) (0, 0.001) =
      [((0 : ℝ), (0 : ℝ)), (0, 0.0005), (0, 0.001)] := by
  unfold segment_points
  rw [num_intermediate_0_001, interpolate_0_001]

theorem densify_eq_of_build (ws : List Coord) (S : ℝ) (p : Coord) (rest : List Coord)
    (h : build_all_points S ws = p :: rest) :
    densify ws S = some (p :: spacing_go S p rest) := by
  unfold densify
  rw [h]

theorem densify_eq_none_of_build (ws : List Coord) (S : ℝ)
    (h : build_all_points S ws = []) : densify ws S = none := by
  unfold densify
  rw [h]

theorem densify_two_close :
    densify [((0 : ℝ), (0 : ℝ)), (0, 0.0001)] 50 = some [((0 : ℝ), (0 : ℝ))] := by
  have hb : build_all_points 50 [((0 : ℝ), (0 : ℝ)), (0, 0.0001)] =
      [((0 : ℝ), (0 : ℝ)), (0, 0.0001)] := by
    rw [show build_all_points 50 [((0 : ℝ), (0 : ℝ)), (0, 0.0001)] =
        segment_points 50 ((0 : ℝ), (0 : ℝ)) (0, 0.0001) from rfl]
    unfold segment_points
    rw [num_intermediate_0_0001, interpolate_0_0001]
  rw [densify_eq_of_build _ _ _ _ hb]
  rw [spacing_go_cons, if_neg (not_le.mpr haversine_0_0001_lt_50)]
  rfl

theorem densify_three_points :
    densify [((0 : ℝ), (0 : ℝ)), (0, 0.001)] 50 =
      some [((0 : ℝ), (0 : ℝ)), (0, 0.0005), (0, 0.001)] := by
  have hb : build_all_points 50 [((0 : ℝ), (0 : ℝ)), (0, 0.001)] =
      [((0 : ℝ), (0 : ℝ)), (0, 0.0005), (0, 0.001)] := by
    rw [show build_all_points 50 [((0 : ℝ), (0 : ℝ)), (0, 0.001)] =
        segment_points 50 ((0 : ℝ), (0 : ℝ)) (0, 0.001) from rfl]
    exact segment_points_0_001
  rw [densify_eq_of_build _ _ _ _ hb]
  rw [spacing_go_cons, if_pos haversine_0_0005_ge_50,
    spacing_go_cons, if_pos haversine_0005_001_ge_50]
  rfl

/-! ### Claim theorems -/

/-- C3: for every pair of real-valued degree coordinates, the Haversine
intermediate term `h` lies in `[0, 1]` — so clamping it to `[0, 1]` is the
identity, the square root and arcsine are applied within their domains
(no domain error), and `haversine_distance` returns a (finite)
non-negative real value. -/
theorem C3_haversine_safety (c1 c2 : Coord) :
    (0 ≤ hterm c1 c2 ∧ hterm c1 c2 ≤ 1) ∧
      min 1 (max 0 (hterm c1 c2)) = hterm c1 c2 ∧
      0 ≤ haversine_distance c1 c2 := by
  refine ⟨⟨hterm_nonneg c1 c2, hterm_le_one c1 c2⟩, ?_, haversine_nonneg c1 c2⟩
  rw [max_eq_right (hterm_nonneg c1 c2), min_eq_right (hterm_le_one c1 c2)]

/-- C10: every call of `interpolate_points` made by the densification
pipeline goes through `segment_points` and passes
`num_points = max(1, int(distance / minSpacing)) ≥ 1`, so the ratio
division `i / num_points` is never a division by zero. -/
theorem C10_no_div_by_zero (minSpacing : ℝ) (s e : Coord) :
    1 ≤ num_intermediate minSpacing s e ∧
      ((num_intermediate minSpacing s e : ℝ) ≠ 0) ∧
      segment_points minSpacing s e =
        interpolate_points s e (num_intermediate minSpacing s e) := by
  have h := one_le_num_intermediate minSpacing s e
  exact ⟨h, Nat.cast_ne_zero.mpr (by omega), rfl⟩

/-- C6: a single gap-filling pass (when it does not crash on an empty list)
never decreases the point count. -/
theorem C6_pass_monotone (gap : ℝ) (fp fp2 : List Coord)
    (h : fill_pass gap fp = some fp2) : fp.length ≤ fp2.length := by
  unfold fill_pass at h
  cases hl : fp.getLast? with
  | none => rw [hl] at h; exact absurd h (by simp)
  | some lastP =>
      rw [hl] at h
      simp only [Option.some.injEq] at h
      have hfb := length_fill_body gap fp
      rw [← h, List.length_append, List.length_singleton]
      omega

theorem C6_witness :
    fill_pass 80 [((0 : ℝ), (0 : ℝ))] = some [((0 : ℝ), (0 : ℝ))] ∧
      ([((0 : ℝ), (0 : ℝ))] : List Coord).length ≤
        ([((0 : ℝ), (0 : ℝ))] : List Coord).length :=
  ⟨rfl, C6_pass_monotone 80 _ _ rfl⟩

/-- C9: when the gap-filling loop ends with more than `target` points, the
returned track is exactly the first `target` points of the accumulated
sequence, so on overshoot the result has exactly `target` points. -/
theorem C9_truncation (target : ℕ) (gap : ℝ) (fuel : ℕ) (fp fpOut : List Coord)
    (hloop : densify_loop target gap fuel fp = some fpOut)
    (hover : target < fpOut.length) :
    densify_to_target target gap fuel fp = some (fpOut.take target) ∧
      (fpOut.take target).length = target := by
  constructor
  · unfold densify_to_target
    rw [hloop]
    rfl
  · rw [List.length_take]
    exact min_eq_left hover.le

theorem C9_witness :
    densify_to_target 1 80 0 [((0 : ℝ), (0 : ℝ)), ((0 : ℝ), (1 : ℝ))] =
        some (([((0 : ℝ), (0 : ℝ)), ((0 : ℝ), (1 : ℝ))] : List Coord).take 1) ∧
      (([((0 : ℝ), (0 : ℝ)), ((0 : ℝ), (1 : ℝ))] : List Coord).take 1).length = 1 :=
  C9_truncation 1 80 0 _ _ rfl (by norm_num)

/-- The all-zero two-point track is a fixed point of the gap-filling pass:
its only gap has distance `0`, below the threshold `80`. -/
theorem fill_pass_fixed :
    fill_pass 80 [((0 : ℝ), (0 : ℝ)), ((0 : ℝ), (0 : ℝ))] =
      some [((0 : ℝ), (0 : ℝ)), ((0 : ℝ), (0 : ℝ))] := by
  simp only [fill_pass, fill_body]
  rw [haversine_self]
  norm_num

/-- C5 is false: if every gap is at most the threshold while the point count
is below the target, a pass changes nothing and the `while` loop never
terminates — here on the track `[[0,0],[0,0]]` with target 1000 and gap
threshold 80 as in the source. -/
theorem C5_counterexample :
    ¬ ∃ fuel,
      (densify_loop 1000 80 fuel
        [((0 : ℝ), (0 : ℝ)), ((0 : ℝ), (0 : ℝ))]).isSome := by
  rintro ⟨fuel, h⟩
  rw [densify_loop_fixed_none 1000 80 _ fill_pass_fixed (by norm_num) fuel] at h
  exact absurd h (by simp)

/-- C5 corrected: the gap-filling loop terminates (immediately) once the
point count is at the target, but termination is not guaranteed for every
input: any sub-target fixed point of the pass makes the loop run forever. -/
theorem C5_loop_termination (target : ℕ) (gap : ℝ) (fp : List Coord) :
    (target ≤ fp.length → ∀ fuel, densify_loop target gap fuel fp = some fp) ∧
      (fill_pass gap fp = some fp → fp.length < target →
        ∀ fuel, densify_loop target gap fuel fp = none) :=
  ⟨densify_loop_of_le target gap fp,
   fun hfix hlen => densify_loop_fixed_none target gap fp hfix hlen⟩

theorem C5_witness :
    densify_loop 2 80 3 [((0 : ℝ), (0 : ℝ)), ((0 : ℝ), (0 : ℝ))] =
        some [((0 : ℝ), (0 : ℝ)), ((0 : ℝ), (0 : ℝ))] ∧
      densify_loop 1000 80 7 [((0 : ℝ), (0 : ℝ)), ((0 : ℝ), (0 : ℝ))] = none :=
  ⟨(C5_loop_termination 2 80 _).1 (by norm_num) 3,
   (C5_loop_termination 1000 80 _).2 fill_pass_fixed (by norm_num) 7⟩

/-- C4 is false: on a single-waypoint list (and on the empty list) the code
evaluates `all_points[0]` on an empty accumulator — an `IndexError`,
modelled as `none` — instead of returning the degenerate track. -/
theorem C4_counterexample :
    densify [((0 : ℝ), (0 : ℝ))] 50 = none ∧
      densify [((0 : ℝ), (0 : ℝ))] 50 ≠ some [((0 : ℝ), (0 : ℝ))] ∧
      densify ([] : List Coord) 50 = none := by
  refine ⟨rfl, fun h => ?_, rfl⟩
  rw [show densify [((0 : ℝ), (0 : ℝ))] 50 = none from rfl] at h
  exact Option.noConfusion h

/-- C4 corrected: `densify` crashes (returns `none`, modelling the Python
`IndexError`) on waypoint lists with fewer than 2 entries, and produces a
result on every list with at least 2 entries. -/
theorem C4_degenerate (ws : List Coord) (S : ℝ) :
    (ws.length < 2 → densify ws S = none) ∧
      (2 ≤ ws.length → (densify ws S).isSome = true) := by
  constructor
  · intro h
    cases ws with
    | nil => rfl
    | cons a tl =>
        cases tl with
        | nil => rfl
        | cons b tl2 => simp only [List.length_cons] at h; omega
  · intro h
    cases ws with
    | nil => simp at h
    | cons a tl =>
        cases tl with
        | nil => simp at h
        | cons b tl2 =>
            cases hb : build_all_points S (a :: b :: tl2) with
            | nil => exact absurd hb (build_all_points_ne_nil S a b tl2)
            | cons p rest =>
                rw [densify_eq_of_build _ _ _ _ hb]
                rfl

theorem C4_witness :
    densify [((0 : ℝ), (0 : ℝ))] 50 = none ∧
      (densify [((0 : ℝ), (0 : ℝ)), ((0 : ℝ), (1 : ℝ))] 50).isSome = true :=
  ⟨(C4_degenerate [((0 : ℝ), (0 : ℝ))] 50).1 (by norm_num),
   (C4_degenerate [((0 : ℝ), (0 : ℝ)), ((0 : ℝ), (1 : ℝ))] 50).2 (by norm_num)⟩

/-- C1 is false: for two waypoints 11 m apart with minSpacing 50 m the
spacing filter drops the final waypoint, so the track's last element is not
the last waypoint. -/
theorem C1_counterexample :
    densify [((0 : ℝ), (0 : ℝ)), ((0 : ℝ), (0.0001 : ℝ))] 50 =
        some [((0 : ℝ), (0 : ℝ))] ∧
      ([((0 : ℝ), (0 : ℝ))] : List Coord).getLast? ≠
        ([((0 : ℝ), (0 : ℝ)), ((0 : ℝ), (0.0001 : ℝ))] : List Coord).getLast? := by
  refine ⟨densify_two_close, fun h => ?_⟩
  simp only [List.getLast?_singleton, List.getLast?_cons_cons,
    Option.some.injEq, Prod.mk.injEq] at h
  exact absurd h.2 (by norm_num)

/-- C1 corrected: the densified track's first element equals the first
waypoint exactly, and its last element either equals the last waypoint or
is at Haversine distance `< minSpacing` from it (the spacing filter may
drop the final waypoint). -/
theorem C1_endpoints (ws : List Coord) (S : ℝ) (r : List Coord)
    (hws : 2 ≤ ws.length) (hr : densify ws S = some r) :
    r.head? = ws.head? ∧
      ∀ p w, r.getLast? = some p → ws.getLast? = some w →
        p = w ∨ haversine_distance p w < S := by
  obtain ⟨a, b, tl, rfl⟩ : ∃ a b tl, ws = a :: b :: tl := by
    cases ws with
    | nil => simp at hws
    | cons a tl =>
        cases tl with
        | nil => simp at hws
        | cons b tl2 => exact ⟨a, b, tl2, rfl⟩
  cases hb : build_all_points S (a :: b :: tl) with
  | nil => exact absurd hb (build_all_points_ne_nil S a b tl)
  | cons p0 rest =>
      rw [densify_eq_of_build _ _ _ _ hb] at hr
      obtain rfl : p0 :: spacing_go S p0 rest = r := by
        simpa using hr
      have hhead : p0 = a := by
        have h1 := head?_build_all_points S a b tl
        rw [hb] at h1
        simpa using h1
      have hlast : (p0 :: rest).getLast? = (a :: b :: tl).getLast? := by
        have h2 := getLast?_build_all_points S a b tl
        rw [hb] at h2
        exact h2
      constructor
      · simp [hhead]
      · intro p w hp hw
        cases rest with
        | nil =>
            rw [← hlast] at hw
            simp only [List.getLast?_singleton, Option.some.injEq] at hw
            simp only [spacing_go, List.getLast?_singleton, Option.some.injEq] at hp
            exact Or.inl (by rw [← hp, ← hw])
        | cons q qs =>
            have hw2 : (q :: qs).getLast? = some w := by
              rw [← hlast] at hw
              rwa [List.getLast?_cons_cons] at hw
            rcases spacing_go_getLast S (q :: qs) p0 w hw2 with h | ⟨z, hz, hzd⟩
            · rw [hp] at h
              exact Or.inl (by injection h)
            · rw [hp] at hz
              injection hz with hz
              exact Or.inr (hz ▸ hzd)

theorem C1_witness :
    ([((0 : ℝ), (0 : ℝ))] : List Coord).head? =
        ([((0 : ℝ), (0 : ℝ)), ((0 : ℝ), (0.0001 : ℝ))] : List Coord).head? ∧
      (((0 : ℝ), (0 : ℝ)) = (((0 : ℝ), (0.0001 : ℝ)) : Coord) ∨
        haversine_distance ((0 : ℝ), (0 : ℝ)) ((0 : ℝ), (0.0001 : ℝ)) < 50) :=
  ⟨(C1_endpoints _ 50 _ (by norm_num) densify_two_close).1,
   (C1_endpoints _ 50 _ (by norm_num) densify_two_close).2 _ _ rfl rfl⟩

/-- C2: in a `densify` result, every adjacent pair of points except possibly
the last pair is at Haversine distance at least `minSpacing` (in fact the
filter guarantees this for the last pair as well). -/
theorem C2_spacing_invariant (ws : List Coord) (S : ℝ) (r : List Coord)
    (hr : densify ws S = some r) (i : ℕ) (hi : i + 2 < r.length)
    (p q : Coord) (hp : r[i]? = some p) (hq : r[i + 1]? = some q) :
    S ≤ haversine_distance p q := by
  have hchain : List.Chain' (fun u v => S ≤ haversine_distance u v) r := by
    cases hb : build_all_points S ws with
    | nil => rw [densify_eq_none_of_build _ _ hb] at hr; exact absurd hr (by simp)
    | cons p0 rest =>
        rw [densify_eq_of_build _ _ _ _ hb] at hr
        obtain rfl : p0 :: spacing_go S p0 rest = r := by simpa using hr
        exact spacing_go_chain S rest p0
  have h1 : i < r.length := by omega
  have h2 : i + 1 < r.length := by omega
  rw [List.getElem?_eq_getElem h1] at hp
  rw [List.getElem?_eq_getElem h2] at hq
  injection hp with hp
  injection hq with hq
  have := List.chain'_iff_get.mp hchain i (by omega)
  rw [List.get_eq_getElem, List.get_eq_getElem] at this
  rw [← hp, ← hq]
  exact this

theorem C2_witness :
    (50 : ℝ) ≤ haversine_distance ((0 : ℝ), (0 : ℝ)) ((0 : ℝ), (0.0005 : ℝ)) :=
  C2_spacing_invariant _ 50 _ densify_three_points 0 (by norm_num) _ _ rfl rfl

theorem radians_lt_of_lt {x : ℝ} (h : x < 90) : radians x < π / 2 := by
  unfold radians
  nlinarith [mul_pos (show (0 : ℝ) < 90 - x by linarith) Real.pi_pos]

theorem neg_lt_radians_of_lt {x : ℝ} (h : -90 < x) : -(π / 2) < radians x := by
  unfold radians
  nlinarith [mul_pos (show (0 : ℝ) < x + 90 by linarith) Real.pi_pos]

theorem radians_inj {x y : ℝ} (h : radians x = radians y) : x = y := by
  unfold radians at h
  have h2 : x * π = y * π := by linarith
  exact mul_right_cancel₀ Real.pi_ne_zero h2

/-- C7 is false at the poles: the two distinct valid coordinates
`[90, 0]` and `[90, 1]` are at Haversine distance exactly `0`. -/
theorem C7_counterexample :
    haversine_distance ((90 : ℝ), (0 : ℝ)) (90, 1) = 0 ∧
      (((90 : ℝ), (0 : ℝ)) : Coord) ≠ ((90 : ℝ), (1 : ℝ)) := by
  constructor
  · have h1 : hterm ((90 : ℝ), (0 : ℝ)) ((90 : ℝ), (1 : ℝ)) = 0 := by
      unfold hterm radians
      norm_num
      rw [show (90 : ℝ) * π / 180 = π / 2 by ring]
      simp [Real.cos_pi_div_two]
    unfold haversine_distance
    rw [h1]
    simp
  · intro h
    rw [Prod.mk.injEq] at h
    exact absurd h.2 (by norm_num)

/-- C7 corrected: `haversine_distance` is symmetric for all coordinates;
and it is zero iff the coordinates are identical provided both latitudes
are strictly inside `(-90, 90)` and both longitudes lie in `(-180, 180]`
(at a pole, or across the `-180/180` antimeridian duplicate, two distinct
coordinate pairs can be at distance zero). -/
theorem C7_symm_zero_iff (c1 c2 : Coord)
    (h1a : -90 < c1.1) (h1b : c1.1 < 90) (h2a : -90 < c2.1) (h2b : c2.1 < 90)
    (h1c : -180 < c1.2) (h1d : c1.2 ≤ 180) (h2c : -180 < c2.2) (h2d : c2.2 ≤ 180) :
    haversine_distance c1 c2 = haversine_distance c2 c1 ∧
      (haversine_distance c1 c2 = 0 ↔ c1 = c2) := by
  refine ⟨haversine_comm c1 c2, ?_, ?_⟩
  · intro h0
    have harc : arcsin (Real.sqrt (hterm c1 c2)) = 0 := by
      unfold haversine_distance at h0
      linarith
    have hsqrt : Real.sqrt (hterm c1 c2) = 0 := by
      by_contra hne
      have hpos : 0 < Real.sqrt (hterm c1 c2) :=
        lt_of_le_of_ne (Real.sqrt_nonneg _) (Ne.symm hne)
      have := Real.arcsin_pos.mpr hpos
      linarith
    have ha : hterm c1 c2 = 0 := (Real.sqrt_eq_zero (hterm_nonneg c1 c2)).mp hsqrt
    have hb1a := neg_lt_radians_of_lt h1a
    have hb1b := radians_lt_of_lt h1b
    have hb2a := neg_lt_radians_of_lt h2a
    have hb2b := radians_lt_of_lt h2b
    have hc1 : 0 < cos (radians c1.1) := Real.cos_pos_of_mem_Ioo ⟨hb1a, hb1b⟩
    have hc2 : 0 < cos (radians c2.1) := Real.cos_pos_of_mem_Ioo ⟨hb2a, hb2b⟩
    unfold hterm at ha
    have e1 : 0 ≤ sin ((radians c2.1 - radians c1.1) / 2) ^ 2 := sq_nonneg _
    have e2 : 0 ≤ cos (radians c1.1) * cos (radians c2.1) *
        sin ((radians c2.2 - radians c1.2) / 2) ^ 2 :=
      mul_nonneg (mul_nonneg hc1.le hc2.le) (sq_nonneg _)
    have hππ := Real.pi_pos
    have hlat : c1.1 = c2.1 := by
      have hz : sin ((radians c2.1 - radians c1.1) / 2) = 0 :=
        (pow_eq_zero_iff (by norm_num : (2 : ℕ) ≠ 0)).mp (by linarith)
      have hzz := (Real.sin_eq_zero_iff_of_lt_of_lt
        (by linarith) (by linarith)).mp hz
      exact radians_inj (by linarith)
    have hlon : c1.2 = c2.2 := by
      have ht : sin ((radians c2.2 - radians c1.2) / 2) ^ 2 = 0 := by
        rcases mul_eq_zero.mp (by linarith :
            cos (radians c1.1) * cos (radians c2.1) *
              sin ((radians c2.2 - radians c1.2) / 2) ^ 2 = 0) with h | h
        · exact absurd h (mul_pos hc1 hc2).ne'
        · exact h
      have hz : sin ((radians c2.2 - radians c1.2) / 2) = 0 :=
        (pow_eq_zero_iff (by norm_num : (2 : ℕ) ≠ 0)).mp ht
      have hub : (radians c2.2 - radians c1.2) / 2 < π := by
        unfold radians
        nlinarith [mul_pos (show (0 : ℝ) < 360 - (c2.2 - c1.2) by linarith)
          Real.pi_pos]
      have hlb : -π < (radians c2.2 - radians c1.2) / 2 := by
        unfold radians
        nlinarith [mul_pos (show (0 : ℝ) < (c2.2 - c1.2) + 360 by linarith)
          Real.pi_pos]
      have hzz := (Real.sin_eq_zero_iff_of_lt_of_lt hlb hub).mp hz
      exact radians_inj (by linarith)
    exact Prod.ext_iff.mpr ⟨hlat, hlon⟩
  · intro h
    rw [h]
    exact haversine_self c2

theorem C7_witness :
    haversine_distance ((10 : ℝ), (20 : ℝ)) (30, 40) =
        haversine_distance ((30 : ℝ), (40 : ℝ)) (10, 20) ∧
      (haversine_distance ((10 : ℝ), (20 : ℝ)) (30, 40) = 0 ↔
        (((10 : ℝ), (20 : ℝ)) : Coord) = ((30 : ℝ), (40 : ℝ))) :=
  C7_symm_zero_iff ((10 : ℝ), (20 : ℝ)) ((30 : ℝ), (40 : ℝ))
    (by norm_num) (by norm_num) (by norm_num) (by norm_num)
    (by norm_num) (by norm_num) (by norm_num) (by norm_num)

/-- C8: `interpolate_points` — as invoked by the pipeline through
`segment_points` — produces exactly `stepCount + 1` points with
`stepCount = max(1, floor(distance / minSpacing))`, each point linearly
interpolated componentwise at ratio `i / stepCount`; concretely, for
`[0,0] → [0,0.001]` with minSpacing `50` it yields exactly 3 points with
longitudes `0`, `0.0005`, `0.001`. -/
theorem C8_interpolate_segment :
    (∀ (s e : Coord) (S : ℝ),
        (segment_points S s e).length = num_intermediate S s e + 1) ∧
      (∀ (s e : Coord) (n i : ℕ), i < n + 1 →
        (interpolate_points s e n)[i]? =
          some (s.1 + (e.1 - s.1) * ((i : ℝ) / (n : ℝ)),
                s.2 + (e.2 - s.2) * ((i : ℝ) / (n : ℝ)))) ∧
      segment_points 50 ((0 : ℝ), (0 : ℝ)) (0, 0.001) =
        [((0 : ℝ), (0 : ℝ)), (0, 0.0005), (0, 0.001)] := by
  refine ⟨fun s e S => length_interpolate_points s e _, ?_, segment_points_0_001⟩
  intro s e n i hi
  unfold interpolate_points
  rw [List.getElem?_map, List.getElem?_range hi]
  rfl

theorem C8_witness :
    (segment_points 50 ((0 : ℝ), (0 : ℝ)) ((0 : ℝ), (0.001 : ℝ))).length =
        num_intermediate 50 ((0 : ℝ), (0 : ℝ)) ((0 : ℝ), (0.001 : ℝ)) + 1 ∧
      (interpolate_points ((0 : ℝ), (0 : ℝ)) ((0 : ℝ), (2 : ℝ)) 2)[1]? =
        some ((((0 : ℝ), (0 : ℝ)) : Coord).1 +
            ((((0 : ℝ), (2 : ℝ)) : Coord).1 - (((0 : ℝ), (0 : ℝ)) : Coord).1) *
              (((1 : ℕ) : ℝ) / ((2 : ℕ) : ℝ)),
          (((0 : ℝ), (0 : ℝ)) : Coord).2 +
            ((((0 : ℝ), (2 : ℝ)) : Coord).2 - (((0 : ℝ), (0 : ℝ)) : Coord).2) *
              (((1 : ℕ) : ℝ) / ((2 : ℕ) : ℝ))) :=
  ⟨C8_interpolate_segment.1 _ _ _,
   C8_interpolate_segment.2.1 _ _ 2 1 (by norm_num)⟩

end Wayzza
